/-
Verification of the gdb pretty-printer providers of `prettyPrinters/gdb_providers.py`.
Each provider's derived fields, summary string and child enumeration are embedded
as executable Lean definitions, and the specification's claims about them are
settled as theorems below the definitions.
-/
import Mathlib

/-
Model of Python `str.format`: each `\x7b\x7d` placeholder is replaced by the
corresponding positional argument; text without placeholders passes through
unchanged, and surplus arguments are silently ignored (as in CPython, where
`"size=".format(5)` returns `"size="`).
-/

def lbChar : Char := Char.ofNat 123

def rbChar : Char := Char.ofNat 125

def fmtChars : List Char → List (List Char) → List Char
  | [], _ => []
  | c1 :: c2 :: rest, a :: args =>
      if c1 = lbChar ∧ c2 = rbChar then a ++ fmtChars rest args
      else c1 :: fmtChars (c2 :: rest) (a :: args)
  | c :: rest, args => c :: fmtChars rest args

def pyFormat (tmpl : String) (args : List String) : String :=
  String.mk (fmtChars tmpl.data (args.map String.data))

theorem data_append (s t : String) : (s ++ t).data = s.data ++ t.data := by
  cases s; cases t; rfl

theorem string_eq_of_data {s t : String} (h : s.data = t.data) : s = t := by
  cases s; cases t; cases h; rfl

theorem empty_append_str (s : String) : "" ++ s = s :=
  string_eq_of_data (by rw [data_append]; exact List.nil_append _)

theorem str_append_empty (s : String) : s ++ "" = s :=
  string_eq_of_data (by rw [data_append]; exact List.append_nil _)

theorem fmtChars_nil_args : ∀ l : List Char, fmtChars l [] = l
  | [] => rfl
  | [_] => rfl
  | _ :: c2 :: rest => by
      show _ :: fmtChars (c2 :: rest) [] = _
      rw [fmtChars_nil_args (c2 :: rest)]

theorem fmtChars_cons_of_ne (c : Char) (rest : List Char) (args : List (List Char))
    (h : c ≠ lbChar) : fmtChars (c :: rest) args = c :: fmtChars rest args := by
  cases rest with
  | nil => cases args <;> rfl
  | cons c2 rest2 =>
      cases args with
      | nil => rfl
      | cons a args2 =>
          show (if c = lbChar ∧ c2 = rbChar then a ++ fmtChars rest2 args2
                else c :: fmtChars (c2 :: rest2) (a :: args2)) = _
          rw [if_neg (fun hc => h hc.1)]

theorem fmtChars_one (pre suf a : List Char) (hpre : ∀ c ∈ pre, c ≠ lbChar) :
    fmtChars (pre ++ lbChar :: rbChar :: suf) [a] = pre ++ (a ++ suf) := by
  induction pre with
  | nil =>
      show (if lbChar = lbChar ∧ rbChar = rbChar then a ++ fmtChars suf []
            else _) = _
      rw [if_pos ⟨rfl, rfl⟩, fmtChars_nil_args, List.nil_append]
  | cons c pre ih =>
      rw [List.cons_append, fmtChars_cons_of_ne c _ _ (hpre c (List.mem_cons_self _ _)),
        ih (fun c hc => hpre c (List.mem_cons_of_mem _ hc)), List.cons_append]

theorem fmtChars_two (pre mid suf a b : List Char) (hpre : ∀ c ∈ pre, c ≠ lbChar)
    (hmid : ∀ c ∈ mid, c ≠ lbChar) :
    fmtChars (pre ++ lbChar :: rbChar :: (mid ++ lbChar :: rbChar :: suf)) [a, b]
      = pre ++ (a ++ (mid ++ (b ++ suf))) := by
  induction pre with
  | nil =>
      show (if lbChar = lbChar ∧ rbChar = rbChar
            then a ++ fmtChars (mid ++ lbChar :: rbChar :: suf) [b] else _) = _
      rw [if_pos ⟨rfl, rfl⟩, fmtChars_one mid suf b hmid, List.nil_append]
  | cons c pre ih =>
      rw [List.cons_append, fmtChars_cons_of_ne c _ _ (hpre c (List.mem_cons_self _ _)),
        ih (fun c hc => hpre c (List.mem_cons_of_mem _ hc)), List.cons_append]

theorem pyFormat_one (tmpl pre suf a : String)
    (htmpl : tmpl.data = pre.data ++ lbChar :: rbChar :: suf.data)
    (hpre : ∀ c ∈ pre.data, c ≠ lbChar) :
    pyFormat tmpl [a] = pre ++ (a ++ suf) := by
  apply string_eq_of_data
  show fmtChars tmpl.data [a.data] = _
  rw [htmpl, fmtChars_one _ _ _ hpre, data_append, data_append]

theorem pyFormat_two (tmpl pre mid suf a b : String)
    (htmpl : tmpl.data = pre.data ++ lbChar :: rbChar :: (mid.data ++ lbChar :: rbChar :: suf.data))
    (hpre : ∀ c ∈ pre.data, c ≠ lbChar)
    (hmid : ∀ c ∈ mid.data, c ≠ lbChar) :
    pyFormat tmpl [a, b] = pre ++ (a ++ (mid ++ (b ++ suf))) := by
  apply string_eq_of_data
  show fmtChars tmpl.data [a.data, b.data] = _
  rw [htmpl, fmtChars_two _ _ _ _ _ hpre hmid, data_append, data_append, data_append,
    data_append]

/-
StdVecProvider: `length = int(valobj["len"])`, `data_ptr` unwrapped buffer
pointer; summary is `"size={}".format(length)` and children yields
`("[{}]".format(index), (data_ptr + index).dereference())` for each index in
`range(length)`.  Memory is modelled as a function from addresses (in units of
the element size, as gdb pointer arithmetic scales by the pointee) to values.
-/

def stdVec_to_string (length : Nat) : String :=
  pyFormat "size=\x7b\x7d" [toString length]

def stdVec_children {α : Type} (length : Nat) (data_ptr : Nat) (mem : Nat → α) :
    List (String × α) :=
  (List.range length).map fun index =>
    (pyFormat "[\x7b\x7d]" [toString index], mem (data_ptr + index))

/-
StdBTreeSetProvider.to_string and StdBTreeMapProvider.to_string: both are
`"size=".format(length)` — the template has no placeholder, so the argument is
dropped by Python's format.
-/

def stdBTreeSet_to_string (length : Nat) : String :=
  pyFormat "size=" [toString length]

def stdBTreeMap_to_string (length : Nat) : String :=
  pyFormat "size=" [toString length]

/-
StdOldHashMapProvider.__init__: `hash_uint_size = hashes.type.sizeof` (a size
in bytes), `modulo = 2 ** hash_uint_size`, and
`capacity = (capacity_mask + 1) % modulo`; the occupancy scan then runs over
`range(capacity)`.
-/

def stdOldHashMap_modulo (hash_uint_size : Nat) : Nat := 2 ^ hash_uint_size

def stdOldHashMap_capacity (hash_uint_size capacity_mask : Nat) : Nat :=
  (capacity_mask + 1) % stdOldHashMap_modulo hash_uint_size

/-- C2: the claim says the tree-based set/map summaries return `"size=<n>"` with
the count interposed; the code formats with a placeholder-free template, so the
count is dropped: at stored length 5 both providers return `"size="`, which
differs from `"size=5"`. -/
theorem btree_summary_drops_count :
    stdBTreeSet_to_string 5 = "size=" ∧ stdBTreeMap_to_string 5 = "size=" ∧
      ("size=" : String) ≠ "size=5" := by
  refine ⟨?_, ?_, ?_⟩ <;> decide

/-- C3: the claim says the derived capacity equals `capacity_mask + 1` for every
machine value of the mask, including 255 and above; the code reduces modulo
`2 ^ sizeof` with `sizeof` counted in bytes (8 for a 64-bit hash word), so at
`capacity_mask = 255` it derives capacity `(255 + 1) % 256 = 0`, not 256. -/
theorem oldHashMap_capacity_truncated :
    stdOldHashMap_capacity 8 255 = 0 ∧ stdOldHashMap_capacity 8 255 ≠ 255 + 1 := by
  refine ⟨?_, ?_⟩ <;> decide

theorem pyFormat_one_nosuf (tmpl pre a : String)
    (htmpl : tmpl.data = pre.data ++ [lbChar, rbChar])
    (hpre : ∀ c ∈ pre.data, c ≠ lbChar) :
    pyFormat tmpl [a] = pre ++ a := by
  have h := pyFormat_one tmpl pre "" a htmpl hpre
  rwa [str_append_empty] at h

/-- C6: for every growable-array provider with stored length `L` and data
pointer `p`, the summary is `"size=<L>"` and `children()` yields exactly `L`
entries keyed `"[0]" ... "[L-1]"` in ascending index order, the `i`-th being
the dereference of `p + i`. -/
theorem stdVec_spec {α : Type} (L data_ptr : Nat) (mem : Nat → α) :
    stdVec_to_string L = "size=" ++ toString L ∧
    (stdVec_children L data_ptr mem).length = L ∧
    ∀ i, i < L → (stdVec_children L data_ptr mem)[i]?
      = some ("[" ++ (toString i ++ "]"), mem (data_ptr + i)) := by
  refine ⟨pyFormat_one_nosuf _ _ _ (by decide) (by decide), by simp [stdVec_children], ?_⟩
  intro i hi
  have hkey : pyFormat "[\x7b\x7d]" [toString i] = "[" ++ (toString i ++ "]") :=
    pyFormat_one _ "[" "]" _ (by decide) (by decide)
  simp [stdVec_children, List.getElem?_range hi, hkey]

def vecMem : Nat → Nat := fun n => [10, 20, 30].getD n 0

/-- Witness for C6: length 3 over backing values 10, 20, 30. -/
theorem stdVec_spec_witness :
    stdVec_to_string 3 = "size=" ++ toString 3 ∧ stdVec_to_string 3 = "size=3" ∧
    (2 < 3 ∧ (stdVec_children 3 100 vecMem)[2]?
      = some ("[" ++ (toString 2 ++ "]"), vecMem (100 + 2))) :=
  ⟨(stdVec_spec 3 100 vecMem).1, by decide, by decide,
    (stdVec_spec 3 100 vecMem).2.2 2 (by decide)⟩

/-
StdVecDequeProvider: stored `head`, `tail`, `cap`; the size is
`head - tail` when `head >= tail` and `cap + head - tail` otherwise; children
reads `(data_ptr + ((tail + index) % cap)).dereference()` for each index in
`range(0, size)`.  Python's `%` raises on a zero divisor, modelled by `pyMod`
returning `none` in that case.
-/

structure VecDequeState where
  head : Nat
  tail : Nat
  cap : Nat

def stdVecDeque_size (s : VecDequeState) : Nat :=
  if s.head ≥ s.tail then s.head - s.tail else s.cap + s.head - s.tail

def pyMod (a b : Nat) : Option Nat := if b = 0 then none else some (a % b)

def stdVecDeque_children {α : Type} (s : VecDequeState) (mem : Nat → α) :
    List (Option (String × α)) :=
  (List.range (stdVecDeque_size s)).map fun index =>
    (pyMod (s.tail + index) s.cap).map fun j =>
      (pyFormat "[\x7b\x7d]" [toString index], mem j)

def stdVecDeque_to_string (s : VecDequeState) : String :=
  pyFormat "size=\x7b\x7d" [toString (stdVecDeque_size s)]

/-- C4: the ring-buffer provider's size is `head - tail` when `head ≥ tail`
and `cap + head - tail` otherwise, and the `i`-th yielded child is read from
slot `(tail + i) % cap`, keyed `"[i]"`. -/
theorem stdVecDeque_spec {α : Type} (s : VecDequeState) (mem : Nat → α)
    (hcap : 0 < s.cap) :
    stdVecDeque_size s
        = (if s.head ≥ s.tail then s.head - s.tail else s.cap + s.head - s.tail) ∧
    (stdVecDeque_children s mem).length = stdVecDeque_size s ∧
    ∀ i, i < stdVecDeque_size s →
      (stdVecDeque_children s mem)[i]?
        = some (some ("[" ++ (toString i ++ "]"), mem ((s.tail + i) % s.cap))) := by
  refine ⟨rfl, by simp [stdVecDeque_children], ?_⟩
  intro i hi
  have hkey : pyFormat "[\x7b\x7d]" [toString i] = "[" ++ (toString i ++ "]") :=
    pyFormat_one _ "[" "]" _ (by decide) (by decide)
  have hcap' : s.cap ≠ 0 := Nat.pos_iff_ne_zero.mp hcap
  simp [stdVecDeque_children, List.getElem?_range hi, pyMod, hcap', hkey]

def dequeMem : Nat → Nat := fun n => [10, 20, 30, 40].getD n 0

/-- Witness for C4: capacity 4, head 1, tail 3 gives size 2; child 1 is read
from slot (3 + 1) % 4 = 0. -/
theorem stdVecDeque_spec_witness :
    (0 < 4 ∧ stdVecDeque_size ⟨1, 3, 4⟩ = 2) ∧
    (1 < stdVecDeque_size ⟨1, 3, 4⟩ ∧
      (stdVecDeque_children ⟨1, 3, 4⟩ dequeMem)[1]?
        = some (some ("[" ++ (toString 1 ++ "]"), dequeMem ((3 + 1) % 4)))) :=
  ⟨⟨by decide, by decide⟩, by decide,
    (stdVecDeque_spec ⟨1, 3, 4⟩ dequeMem (by decide)).2.2 1 (by decide)⟩

/-- C10: whenever the computed size is 0 (in particular whenever
`head = tail`, including capacity 0), `children()` is the empty sequence and no
modulo-by-capacity computation is evaluated (no entry of the children list is a
failed `pyMod`). -/
theorem stdVecDeque_empty_total {α : Type} (s : VecDequeState) (mem : Nat → α) :
    (s.head = s.tail → stdVecDeque_size s = 0) ∧
    (stdVecDeque_size s = 0 → stdVecDeque_children s mem = []) ∧
    (stdVecDeque_size s = 0 → ∀ o ∈ stdVecDeque_children s mem, o ≠ none) := by
  refine ⟨?_, ?_, ?_⟩
  · intro h; simp [stdVecDeque_size, h]
  · intro h; simp [stdVecDeque_children, h]
  · intro h o ho; simp [stdVecDeque_children, h] at ho

/-- Witness for C10 at head = tail = 2, capacity 0. -/
theorem stdVecDeque_empty_total_witness :
    stdVecDeque_children (⟨2, 2, 0⟩ : VecDequeState) (fun _ => (0 : Nat)) = [] :=
  (stdVecDeque_empty_total ⟨2, 2, 0⟩ (fun _ => (0 : Nat))).2.1
    ((stdVecDeque_empty_total ⟨2, 2, 0⟩ (fun _ => (0 : Nat))).1 rfl)

/-
StdRcProvider: reads the payload, the strong count, and `weak - 1` where
`weak` is the stored weak field.  The subtraction happens on a gdb value of
the unsigned machine-word type, so it wraps modulo `2 ^ 64`; it is modelled as
adding `2 ^ 64 - 1` modulo `2 ^ 64`.
-/

def stdRc_strong (strong : Nat) : Nat := strong

theorem stdRc_strong_id (n : Nat) : stdRc_strong n = n := rfl

def stdRc_weak (weak : Nat) : Nat := (weak + (2 ^ 64 - 1)) % 2 ^ 64

def stdRc_to_string (strong weak : Nat) : String :=
  pyFormat "strong=\x7b\x7d, weak=\x7b\x7d"
    [toString (stdRc_strong strong), toString (stdRc_weak weak)]

def stdRc_children {α : Type} (value : α) (strong weak : Nat) :
    List (String × (α ⊕ Nat)) :=
  [("value", Sum.inl value), ("strong", Sum.inr (stdRc_strong strong)),
    ("weak", Sum.inr (stdRc_weak weak))]

/-- C7: for a reference-counted box with stored strong value `S` and weak value
`W` (a machine word, at least 1 by the data-model invariant), the displayed
weak count is `W - 1`, the strong count is `S` unchanged, the summary is
`"strong=<S>, weak=<W-1>"`, and children are payload, strong, weak in that
order. -/
theorem stdRc_spec {α : Type} (value : α) (S W : Nat) (hW : 1 ≤ W)
    (hW2 : W < 2 ^ 64) :
    stdRc_weak W = W - 1 ∧ stdRc_strong S = S ∧
    stdRc_to_string S W
      = "strong=" ++ (toString S ++ (", weak=" ++ toString (W - 1))) ∧
    stdRc_children value S W
      = [("value", Sum.inl value), ("strong", Sum.inr S),
          ("weak", Sum.inr (W - 1))] := by
  have hpow : (2 : Nat) ^ 64 = 18446744073709551616 := by norm_num
  have hw : stdRc_weak W = W - 1 := by
    unfold stdRc_weak
    rw [hpow] at hW2 ⊢
    omega
  have h2 := pyFormat_two "strong=\x7b\x7d, weak=\x7b\x7d" "strong=" ", weak=" ""
    (toString (stdRc_strong S)) (toString (W - 1)) (by decide) (by decide) (by decide)
  rw [str_append_empty] at h2
  have hsum : stdRc_to_string S W
      = "strong=" ++ (toString S ++ (", weak=" ++ toString (W - 1))) := by
    unfold stdRc_to_string
    rw [hw]
    exact h2
  exact ⟨hw, stdRc_strong_id S, hsum, by simp [stdRc_children, stdRc_strong, hw]⟩

/-- Witness for C7 at strong 2, weak 5: displayed weak is 4. -/
theorem stdRc_spec_witness :
    (1 ≤ 5 ∧ 5 < 2 ^ 64) ∧
    stdRc_to_string 2 5
      = "strong=" ++ (toString 2 ++ (", weak=" ++ toString (5 - 1 : Nat))) ∧
    stdRc_to_string 2 5 = "strong=2, weak=4" :=
  ⟨⟨by decide, by norm_num⟩,
    (stdRc_spec (0 : Nat) 2 5 (by decide) (by norm_num)).2.2.1, by decide⟩

/-
StdRefCellProvider and StdRefProvider share the borrow summary: the stored
borrow counter is a signed machine integer; nonnegative means shared borrows,
negative means one exclusive borrow displayed as the negated magnitude.
-/

def stdRefCell_to_string (borrow : Int) : String :=
  if borrow ≥ 0 then pyFormat "borrow=\x7b\x7d" [toString borrow]
  else pyFormat "borrow_mut=\x7b\x7d" [toString (-borrow)]

def stdRef_to_string (borrow : Int) : String :=
  if borrow ≥ 0 then pyFormat "borrow=\x7b\x7d" [toString borrow]
  else pyFormat "borrow_mut=\x7b\x7d" [toString (-borrow)]

/-- C8: for every signed borrow counter `n` the summary is `"borrow=<n>"` when
`n ≥ 0` and `"borrow_mut=<-n>"` when `n < 0`, for the borrow-tracking cell and
its guard type alike; the two cases are mutually exclusive and exhaustive. -/
theorem borrow_summary_spec (n : Int) :
    (0 ≤ n →
      stdRefCell_to_string n = "borrow=" ++ toString n ∧
      stdRef_to_string n = "borrow=" ++ toString n) ∧
    (n < 0 →
      stdRefCell_to_string n = "borrow_mut=" ++ toString (-n) ∧
      stdRef_to_string n = "borrow_mut=" ++ toString (-n)) ∧
    ¬(0 ≤ n ∧ n < 0) ∧ (0 ≤ n ∨ n < 0) := by
  refine ⟨?_, ?_, by omega, by omega⟩
  · intro h
    have e : pyFormat "borrow=\x7b\x7d" [toString n] = "borrow=" ++ toString n :=
      pyFormat_one_nosuf _ _ _ (by decide) (by decide)
    constructor <;>
      simp only [stdRefCell_to_string, stdRef_to_string] <;> rw [if_pos h, e]
  · intro h
    have e : pyFormat "borrow_mut=\x7b\x7d" [toString (-n)]
        = "borrow_mut=" ++ toString (-n) :=
      pyFormat_one_nosuf _ _ _ (by decide) (by decide)
    constructor <;>
      simp only [stdRefCell_to_string, stdRef_to_string] <;>
        rw [if_neg (by omega), e]

/-- Witness for C8 at counters 3 and -2. -/
theorem borrow_summary_witness :
    ((0 : Int) ≤ 3 ∧ stdRefCell_to_string 3 = "borrow=" ++ toString (3 : Int)) ∧
    ((-2 : Int) < 0 ∧ stdRef_to_string (-2) = "borrow_mut=" ++ toString (-(-2 : Int))) :=
  ⟨⟨by decide, ((borrow_summary_spec 3).1 (by decide)).1⟩,
    ⟨by decide, ((borrow_summary_spec (-2)).2.1 (by decide)).2⟩⟩

/-
StdHashMapProvider (current layout): capacity is `bucket_mask + 1`; the
constructor scans `range(capacity)` and records `idx` as valid when the
control byte satisfies `value & 128 == 0`; children then reads
`valid_indices[index]` for `index` in `range(size)`.
StdOldHashMapProvider (legacy layout): the constructor records `idx` over
`range(capacity)` when the bucket's tagged hash word is nonzero; children
reads the pair at `valid_indices[index] & capacity_mask`.
Out-of-range list accesses (a Python IndexError) are modelled by the
`Option`-valued indexing of the reads lists.
-/

def stdHashMap_valid_indices (capacity : Nat) (ctrl : Nat → Nat) : List Nat :=
  (List.range capacity).filter fun idx => ctrl idx &&& 128 == 0

def stdHashMap_children_reads (size : Nat) (valid : List Nat) : List (Option Nat) :=
  (List.range size).map fun index => valid[index]?

def stdOldHashMap_valid_indices (capacity : Nat) (hashes : Nat → Nat) : List Nat :=
  (List.range capacity).filter fun idx => hashes idx != 0

def stdOldHashMap_children_reads (size : Nat) (valid : List Nat)
    (capacity_mask : Nat) : List (Option Nat) :=
  (List.range size).map fun index => (valid[index]?).map (· &&& capacity_mask)

theorem and_128_eq_zero_iff (b : Nat) : b &&& 128 = 0 ↔ b.testBit 7 = false := by
  have h128 : (128 : Nat) = 2 ^ 7 := by norm_num
  constructor
  · intro h
    have h7 := congrArg (fun x => Nat.testBit x 7) h
    simp only [Nat.testBit_and, Nat.zero_testBit] at h7
    rwa [h128, Nat.testBit_two_pow_self, Bool.and_true] at h7
  · intro h
    apply Nat.eq_of_testBit_eq
    intro i
    simp only [Nat.testBit_and, Nat.zero_testBit]
    by_cases hi : i = 7
    · subst hi; rw [h, Bool.false_and]
    · rw [h128, Nat.testBit_two_pow, decide_eq_false (fun hc => hi hc.symm),
        Bool.and_false]

/-- C5: under the precondition that the stored size equals the number of
occupied buckets, both hash-table providers build an occupied-index list whose
length equals the size; in the current layout a bucket is occupied iff its
control byte's high bit is clear; `children()` yields exactly `size` entries,
each read from an occupied in-range bucket (through `idx & capacity_mask` in
the legacy layout, the identity for the power-of-two capacities of that
layout), and the children sequence is empty when the size is 0. -/
theorem hashMap_providers_spec
    (cap : Nat) (ctrl : Nat → Nat) (size : Nat)
    (hsize : size = (List.range cap).countP fun idx => ctrl idx &&& 128 == 0)
    (ocap omask n osize : Nat) (hashes : Nat → Nat)
    (hosize : osize = (List.range ocap).countP fun idx => hashes idx != 0)
    (homask : omask = 2 ^ n - 1) (hocap : ocap ≤ 2 ^ n) :
    (stdHashMap_valid_indices cap ctrl).length = size ∧
    (∀ i, i ∈ stdHashMap_valid_indices cap ctrl ↔
        i < cap ∧ (ctrl i).testBit 7 = false) ∧
    (stdHashMap_children_reads size (stdHashMap_valid_indices cap ctrl)).length
        = size ∧
    (∀ o ∈ stdHashMap_children_reads size (stdHashMap_valid_indices cap ctrl),
        ∃ j, o = some j ∧ j < cap ∧ (ctrl j).testBit 7 = false) ∧
    (size = 0 →
      stdHashMap_children_reads size (stdHashMap_valid_indices cap ctrl) = []) ∧
    (stdOldHashMap_valid_indices ocap hashes).length = osize ∧
    (stdOldHashMap_children_reads osize
        (stdOldHashMap_valid_indices ocap hashes) omask).length = osize ∧
    (∀ o ∈ stdOldHashMap_children_reads osize
        (stdOldHashMap_valid_indices ocap hashes) omask,
        ∃ j, o = some j ∧ j < ocap ∧ hashes j ≠ 0) ∧
    (osize = 0 →
      stdOldHashMap_children_reads osize
        (stdOldHashMap_valid_indices ocap hashes) omask = []) := by
  have hvl : (stdHashMap_valid_indices cap ctrl).length = size := by
    rw [hsize, stdHashMap_valid_indices, ← List.countP_eq_length_filter]
  have hmem : ∀ i, i ∈ stdHashMap_valid_indices cap ctrl ↔
      i < cap ∧ (ctrl i).testBit 7 = false := by
    intro i
    rw [stdHashMap_valid_indices, List.mem_filter, List.mem_range]
    constructor
    · rintro ⟨h1, h2⟩
      exact ⟨h1, (and_128_eq_zero_iff _).mp (by simpa using h2)⟩
    · rintro ⟨h1, h2⟩
      exact ⟨h1, by simpa using (and_128_eq_zero_iff _).mpr h2⟩
  have hovl : (stdOldHashMap_valid_indices ocap hashes).length = osize := by
    rw [hosize, stdOldHashMap_valid_indices, ← List.countP_eq_length_filter]
  refine ⟨hvl, hmem, by simp [stdHashMap_children_reads], ?_,
    (by intro h; simp [stdHashMap_children_reads, h]), hovl,
    by simp [stdOldHashMap_children_reads], ?_,
    (by intro h; simp [stdOldHashMap_children_reads, h])⟩
  · intro o ho
    rw [stdHashMap_children_reads] at ho
    obtain ⟨k, hk, rfl⟩ := List.mem_map.mp ho
    rw [List.mem_range] at hk
    have hk' : k < (stdHashMap_valid_indices cap ctrl).length := by omega
    rw [List.getElem?_eq_getElem hk']
    refine ⟨(stdHashMap_valid_indices cap ctrl)[k], rfl, ?_⟩
    exact (hmem _).mp (List.getElem_mem hk')
  · intro o ho
    rw [stdOldHashMap_children_reads] at ho
    obtain ⟨k, hk, rfl⟩ := List.mem_map.mp ho
    rw [List.mem_range] at hk
    have hk' : k < (stdOldHashMap_valid_indices ocap hashes).length := by omega
    rw [List.getElem?_eq_getElem hk']
    have homem : ∀ i, i ∈ stdOldHashMap_valid_indices ocap hashes ↔
        i < ocap ∧ hashes i ≠ 0 := by
      intro i
      unfold stdOldHashMap_valid_indices
      rw [List.mem_filter, List.mem_range]
      simp
    have hjmem := (homem _).mp (List.getElem_mem hk')
    have hlt : (stdOldHashMap_valid_indices ocap hashes)[k] < 2 ^ n :=
      lt_of_lt_of_le hjmem.1 hocap
    refine ⟨(stdOldHashMap_valid_indices ocap hashes)[k], ?_, hjmem.1, hjmem.2⟩
    simp only [Option.map_some']
    rw [homask, Nat.and_pow_two_sub_one_of_lt_two_pow hlt]

def ctrlW : Nat → Nat := fun i => if i = 0 then 2 else 255

def hashesW : Nat → Nat := fun _ => 0

/-- Witness for C5: a 2-bucket current-layout table with one occupied bucket
and a 1-bucket legacy table with no occupied bucket. -/
theorem hashMap_providers_spec_witness :
    (1 = (List.range 2).countP (fun idx => ctrlW idx &&& 128 == 0)) ∧
    (stdHashMap_valid_indices 2 ctrlW).length = 1 ∧
    (stdOldHashMap_valid_indices 1 hashesW).length = 0 :=
  ⟨by decide,
    (hashMap_providers_spec 2 ctrlW 1 (by decide) 1 0 0 0 hashesW (by decide)
      (by decide) (by decide)).1,
    (hashMap_providers_spec 2 ctrlW 1 (by decide) 1 0 0 0 hashesW (by decide)
      (by decide) (by decide)).2.2.2.2.2.1⟩

/-
EnumProvider: reads the synthetic content field's sub-fields; empty means no
live variant (summary is the type name, no children); one sub-field means
discriminant 0; otherwise the discriminant is the integer value of sub-field 0
plus 1, and the active variant's payload sits at that slot.  A discriminant
outside the field list is a gdb access error, modelled by `none`.
-/

structure EnumState (α : Type) where
  full_name : String
  active : Option (String × α)

def enumProvider_init {α : Type} (typeName : String) (fields : List (String × α))
    (tag : Nat) : Option (EnumState α) :=
  if fields.length = 0 then some ⟨typeName, none⟩
  else
    let discriminant := if fields.length = 1 then 0 else tag + 1
    match fields[discriminant]? with
    | some nv => some ⟨pyFormat "\x7b\x7d::\x7b\x7d" [typeName, nv.1], some nv⟩
    | none => none

def enumProvider_to_string {α : Type} (s : EnumState α) : String := s.full_name

def enumProvider_children {α : Type} (s : EnumState α) : List (String × α) :=
  match s.active with
  | none => []
  | some nv => [nv]

theorem pyFormat_join (a b : String) :
    pyFormat "\x7b\x7d::\x7b\x7d" [a, b] = a ++ ("::" ++ b) := by
  have h := pyFormat_two "\x7b\x7d::\x7b\x7d" "" "::" "" a b (by decide) (by decide)
    (by decide)
  rw [str_append_empty, empty_append_str] at h
  exact h

/-- C9: with an empty sub-field list the enum summary is the type name alone
and there are no children; with exactly one sub-field the discriminant is 0;
otherwise the discriminant is the first sub-field's integer value plus 1; in
the non-empty cases the summary is `"<type>::<variant>"` and the single child
is the active variant's payload keyed by its variant name. -/
theorem enumProvider_spec {α : Type} (typeName : String)
    (fields : List (String × α)) (tag : Nat) :
    (fields = [] →
      enumProvider_init typeName fields tag = some ⟨typeName, none⟩ ∧
      enumProvider_to_string (⟨typeName, none⟩ : EnumState α) = typeName ∧
      enumProvider_children (⟨typeName, none⟩ : EnumState α) = []) ∧
    (∀ nv : String × α, fields = [nv] →
      enumProvider_init typeName fields tag
        = some ⟨typeName ++ ("::" ++ nv.1), some nv⟩ ∧
      enumProvider_children (⟨typeName ++ ("::" ++ nv.1), some nv⟩ : EnumState α)
        = [nv]) ∧
    (2 ≤ fields.length → ∀ nv : String × α, fields[tag + 1]? = some nv →
      enumProvider_init typeName fields tag
        = some ⟨typeName ++ ("::" ++ nv.1), some nv⟩ ∧
      enumProvider_children (⟨typeName ++ ("::" ++ nv.1), some nv⟩ : EnumState α)
        = [nv]) := by
  refine ⟨?_, ?_, ?_⟩
  · rintro rfl
    exact ⟨rfl, rfl, rfl⟩
  · rintro nv rfl
    refine ⟨?_, rfl⟩
    simp [enumProvider_init, pyFormat_join]
  · intro hlen nv hget
    refine ⟨?_, rfl⟩
    have h0 : ¬fields.length = 0 := by omega
    have h1 : ¬fields.length = 1 := by omega
    simp [enumProvider_init, h0, h1, hget, pyFormat_join]

def enumFieldsW : List (String × Nat) := [("a", 10), ("b", 20), ("c", 30)]

/-- Witness for C9: three variant slots with discriminant tag 1 select the
payload at slot 2. -/
theorem enumProvider_spec_witness :
    (2 ≤ enumFieldsW.length ∧ enumFieldsW[1 + 1]? = some ("c", 30)) ∧
    enumProvider_init "Op" enumFieldsW 1
      = some ⟨"Op" ++ ("::" ++ "c"), some ("c", 30)⟩ :=
  ⟨⟨by decide, by decide⟩,
    ((enumProvider_spec "Op" enumFieldsW 1).2.2 (by decide) ("c", 30)
      (by decide)).1⟩

/-
children_of_node: walks a B-tree node of the given height.  A node stores a
`keys` array, a `vals` array and (at positive height) an `edges` array; the
traversal loops `i` over `[0, len]`, first recursively walking edge `i` when
the height is positive, then yielding key `i` (paired with value `i` when
`want_values`) when `i < len`.  The recursion of the source decrements the
height, so the embedding recurses on the height.  Nodes are modelled with the
lists of their `len` live keys/values and `len + 1` live edges.
-/

inductive BNode (α β : Type) : Type where
  | node : List α → List β → List (BNode α β) → BNode α β

def BNode.keys {α β : Type} : BNode α β → List α
  | .node ks _ _ => ks

def BNode.vals {α β : Type} : BNode α β → List β
  | .node _ vs _ => vs

def BNode.edges {α β : Type} : BNode α β → List (BNode α β)
  | .node _ _ es => es

def emit {α β : Type} (want_values : Bool) (keys : List α) (vals : List β) :
    List (α × Option β) :=
  if want_values then keys.zip (vals.map some) else keys.map fun k => (k, none)

def interleaveEmit {α β : Type} (walkf : BNode α β → List (α × Option β)) :
    List (BNode α β) → List (α × Option β) → List (α × Option β)
  | [], _ => []
  | e :: _, [] => walkf e
  | e :: es, p :: ps => walkf e ++ p :: interleaveEmit walkf es ps

def children_of_node {α β : Type} (boxed_node : BNode α β) (height : Nat)
    (want_values : Bool) : List (α × Option β) :=
  Nat.rec (motive := fun _ => BNode α β → List (α × Option β))
    (fun t => emit want_values t.keys t.vals)
    (fun _ ih t => interleaveEmit ih t.edges (emit want_values t.keys t.vals))
    height boxed_node

theorem children_of_node_zero {α β : Type} (t : BNode α β) (w : Bool) :
    children_of_node t 0 w = emit w t.keys t.vals := rfl

theorem children_of_node_succ {α β : Type} (t : BNode α β) (h : Nat) (w : Bool) :
    children_of_node t (h + 1) w
      = interleaveEmit (fun e => children_of_node e h w) t.edges
          (emit w t.keys t.vals) := rfl

def flattenKeys {α β : Type} (ak : BNode α β → List α) :
    List (BNode α β) → List α
  | [] => []
  | e :: es => ak e ++ flattenKeys ak es

def allKeys {α β : Type} (height : Nat) (t : BNode α β) : List α :=
  Nat.rec (motive := fun _ => BNode α β → List α)
    (fun t => t.keys)
    (fun _ ih t => t.keys ++ flattenKeys ih t.edges)
    height t

theorem allKeys_zero {α β : Type} (t : BNode α β) : allKeys 0 t = t.keys := rfl

theorem allKeys_succ {α β : Type} (h : Nat) (t : BNode α β) :
    allKeys (h + 1) t = t.keys ++ flattenKeys (allKeys h) t.edges := rfl

/-
Well-formedness of a B-tree of a given height: lengths as stored by the nodes
(`len` keys, `len` values, `len + 1` edges), strictly increasing keys, and the
search-tree separation along the key/edge interleaving: every key of edge `i`
is below key `i`, and key `i` is below every key of any later edge and every
later key.
-/

def orderedAux {α β : Type} [LT α] (ak : BNode α β → List α) :
    List α → List (BNode α β) → Prop
  | [], _ => True
  | _ :: _, [] => True
  | k :: ks, e :: es =>
      (∀ x ∈ ak e, x < k) ∧ (∀ e2 ∈ es, ∀ x ∈ ak e2, k < x) ∧
        (∀ k2 ∈ ks, k < k2) ∧ orderedAux ak ks es

def wf {α β : Type} [LT α] (height : Nat) (t : BNode α β) : Prop :=
  Nat.rec (motive := fun _ => BNode α β → Prop)
    (fun t => t.vals.length = t.keys.length ∧ t.keys.Pairwise (· < ·))
    (fun h ih t =>
      t.edges.length = t.keys.length + 1 ∧ t.vals.length = t.keys.length ∧
        (∀ e ∈ t.edges, ih e) ∧ orderedAux (allKeys h) t.keys t.edges)
    height t

def orderedAuxDec {α β : Type} [LinearOrder α] (ak : BNode α β → List α) :
    (ks : List α) → (es : List (BNode α β)) → Decidable (orderedAux ak ks es)
  | [], _ => isTrue trivial
  | _ :: _, [] => isTrue trivial
  | k :: ks, e :: es =>
      haveI : Decidable (orderedAux ak ks es) := orderedAuxDec ak ks es
      inferInstanceAs (Decidable ((∀ x ∈ ak e, x < k) ∧
        (∀ e2 ∈ es, ∀ x ∈ ak e2, k < x) ∧ (∀ k2 ∈ ks, k < k2) ∧
        orderedAux ak ks es))

def wfDec {α β : Type} [LinearOrder α] :
    (height : Nat) → (t : BNode α β) → Decidable (wf height t)
  | 0, t =>
      inferInstanceAs
        (Decidable (t.vals.length = t.keys.length ∧ t.keys.Pairwise (· < ·)))
  | h + 1, t =>
      haveI : DecidablePred (wf (α := α) (β := β) h) := fun t2 => wfDec h t2
      haveI : Decidable (orderedAux (allKeys h) t.keys t.edges) :=
        orderedAuxDec (allKeys h) t.keys t.edges
      inferInstanceAs (Decidable (t.edges.length = t.keys.length + 1 ∧
        t.vals.length = t.keys.length ∧ (∀ e ∈ t.edges, wf h e) ∧
        orderedAux (allKeys h) t.keys t.edges))

instance {α β : Type} [LinearOrder α] (height : Nat) (t : BNode α β) :
    Decidable (wf height t) := wfDec height t

instance (l1 l2 : List Nat) : Decidable (l1.Perm l2) :=
  decidable_of_iff (l1.isPerm l2 = true) List.isPerm_iff

theorem emit_map_fst {α β : Type} (w : Bool) (keys : List α) (vals : List β)
    (hlen : vals.length = keys.length) :
    (emit w keys vals).map Prod.fst = keys := by
  cases w
  · show (keys.map fun k => (k, none)).map Prod.fst = keys
    rw [List.map_map]
    exact List.map_id _
  · rw [show emit true keys vals = keys.zip (vals.map some) from rfl]
    exact List.map_fst_zip _ _ (le_of_eq (by rw [List.length_map, hlen]))

theorem emit_length {α β : Type} (w : Bool) (keys : List α) (vals : List β)
    (hlen : vals.length = keys.length) :
    (emit w keys vals).length = keys.length := by
  have h := congrArg List.length (emit_map_fst w keys vals hlen)
  rwa [List.length_map] at h

theorem interleaveEmit_map_fst_perm {α β : Type}
    (walkf : BNode α β → List (α × Option β)) (ak : BNode α β → List α) :
    ∀ (es : List (BNode α β)) (ps : List (α × Option β)),
      es.length = ps.length + 1 →
      (∀ e ∈ es, ((walkf e).map Prod.fst).Perm (ak e)) →
      ((interleaveEmit walkf es ps).map Prod.fst).Perm
        (ps.map Prod.fst ++ flattenKeys ak es)
  | [], ps, hlen, _ => by simp at hlen
  | e :: es, [], hlen, hperm => by
      have hes : es = [] := List.length_eq_zero.mp (by simpa using hlen)
      subst hes
      show ((walkf e).map Prod.fst).Perm ([] ++ (ak e ++ []))
      rw [List.nil_append, List.append_nil]
      exact hperm e (List.mem_cons_self _ _)
  | e :: es, p :: ps, hlen, hperm => by
      have hlen2 : es.length = ps.length + 1 := by simpa using hlen
      have ih := interleaveEmit_map_fst_perm walkf ak es ps hlen2
        (fun e2 he2 => hperm e2 (List.mem_cons_of_mem _ he2))
      show ((walkf e ++ p :: interleaveEmit walkf es ps).map Prod.fst).Perm
        (p.1 :: ps.map Prod.fst ++ (ak e ++ flattenKeys ak es))
      rw [List.map_append, List.map_cons]
      have step1 : ((walkf e).map Prod.fst
            ++ p.1 :: (interleaveEmit walkf es ps).map Prod.fst).Perm
          (ak e ++ p.1 :: (ps.map Prod.fst ++ flattenKeys ak es)) :=
        List.Perm.append (hperm e (List.mem_cons_self _ _)) (ih.cons p.1)
      refine step1.trans ?_
      refine List.perm_middle.trans ?_
      refine List.Perm.cons p.1 ?_
      rw [← List.append_assoc]
      refine (List.Perm.append_right _ List.perm_append_comm).trans ?_
      rw [List.append_assoc]
      exact List.Perm.refl _

theorem interleaveEmit_mem_fst {α β : Type}
    (walkf : BNode α β → List (α × Option β)) (ak : BNode α β → List α) :
    ∀ (es : List (BNode α β)) (ps : List (α × Option β)) (y : α),
      (∀ e ∈ es, ((walkf e).map Prod.fst).Perm (ak e)) →
      y ∈ (interleaveEmit walkf es ps).map Prod.fst →
      (∃ e ∈ es, y ∈ ak e) ∨ y ∈ ps.map Prod.fst
  | [], _, y, _, hy => by simp [interleaveEmit] at hy
  | e :: es, [], y, hperm, hy =>
      Or.inl ⟨e, List.mem_cons_self _ _,
        ((hperm e (List.mem_cons_self _ _)).mem_iff).mp hy⟩
  | e :: es, p :: ps, y, hperm, hy => by
      rw [show interleaveEmit walkf (e :: es) (p :: ps)
          = walkf e ++ p :: interleaveEmit walkf es ps from rfl,
        List.map_append, List.map_cons] at hy
      rcases List.mem_append.mp hy with h1 | h2
      · exact Or.inl ⟨e, List.mem_cons_self _ _,
          ((hperm e (List.mem_cons_self _ _)).mem_iff).mp h1⟩
      · rcases List.mem_cons.mp h2 with h3 | h4
        · subst h3
          exact Or.inr (List.mem_cons_self _ _)
        · rcases interleaveEmit_mem_fst walkf ak es ps y
              (fun e2 he2 => hperm e2 (List.mem_cons_of_mem _ he2)) h4 with
            ⟨e2, he2, hy2⟩ | h5
          · exact Or.inl ⟨e2, List.mem_cons_of_mem _ he2, hy2⟩
          · exact Or.inr (List.mem_cons_of_mem _ h5)

theorem interleaveEmit_pairwise {α β : Type} [LinearOrder α]
    (walkf : BNode α β → List (α × Option β)) (ak : BNode α β → List α) :
    ∀ (es : List (BNode α β)) (ps : List (α × Option β)),
      (∀ e ∈ es, ((walkf e).map Prod.fst).Perm (ak e)) →
      (∀ e ∈ es, ((walkf e).map Prod.fst).Pairwise (· < ·)) →
      orderedAux ak (ps.map Prod.fst) es →
      ((interleaveEmit walkf es ps).map Prod.fst).Pairwise (· < ·)
  | [], ps, _, _, _ => by simp [interleaveEmit]
  | e :: es, [], _, hsort, _ => hsort e (List.mem_cons_self _ _)
  | e :: es, p :: ps, hperm, hsort, hord => by
      obtain ⟨h1, h2, h3, h4⟩ := hord
      rw [show interleaveEmit walkf (e :: es) (p :: ps)
          = walkf e ++ p :: interleaveEmit walkf es ps from rfl,
        List.map_append, List.map_cons, List.pairwise_append]
      refine ⟨hsort e (List.mem_cons_self _ _), ?_, ?_⟩
      · rw [List.pairwise_cons]
        refine ⟨?_, interleaveEmit_pairwise walkf ak es ps
          (fun e2 he2 => hperm e2 (List.mem_cons_of_mem _ he2))
          (fun e2 he2 => hsort e2 (List.mem_cons_of_mem _ he2)) h4⟩
        intro y hy
        rcases interleaveEmit_mem_fst walkf ak es ps y
            (fun e2 he2 => hperm e2 (List.mem_cons_of_mem _ he2)) hy with
          ⟨e2, he2, hy2⟩ | h5
        · exact h2 e2 he2 y hy2
        · exact h3 y h5
      · intro x hx y hy
        have hxp : x < p.1 :=
          h1 x (((hperm e (List.mem_cons_self _ _)).mem_iff).mp hx)
        rcases List.mem_cons.mp hy with h6 | h7
        · rw [h6]; exact hxp
        · rcases interleaveEmit_mem_fst walkf ak es ps y
              (fun e2 he2 => hperm e2 (List.mem_cons_of_mem _ he2)) h7 with
            ⟨e2, he2, hy2⟩ | h8
          · exact lt_trans hxp (h2 e2 he2 y hy2)
          · exact lt_trans hxp (h3 y h8)

theorem children_map_fst_perm {α β : Type} [LinearOrder α] (w : Bool) :
    ∀ (height : Nat) (t : BNode α β), wf height t →
      ((children_of_node t height w).map Prod.fst).Perm (allKeys height t)
  | 0, t, hwf => by
      rw [children_of_node_zero, emit_map_fst w _ _ hwf.1, allKeys_zero]
  | h + 1, t, hwf => by
      obtain ⟨hlen, hvals, hall, hord⟩ := hwf
      rw [children_of_node_succ, allKeys_succ]
      have hres := interleaveEmit_map_fst_perm (fun e => children_of_node e h w)
        (allKeys h) t.edges (emit w t.keys t.vals)
        (by rw [emit_length w _ _ hvals]; exact hlen)
        (fun e he => children_map_fst_perm w h e (hall e he))
      rwa [emit_map_fst w _ _ hvals] at hres

theorem children_map_fst_pairwise {α β : Type} [LinearOrder α] (w : Bool) :
    ∀ (height : Nat) (t : BNode α β), wf height t →
      ((children_of_node t height w).map Prod.fst).Pairwise (· < ·)
  | 0, t, hwf => by
      rw [children_of_node_zero, emit_map_fst w _ _ hwf.1]
      exact hwf.2
  | h + 1, t, hwf => by
      obtain ⟨hlen, hvals, hall, hord⟩ := hwf
      rw [children_of_node_succ]
      refine interleaveEmit_pairwise (fun e => children_of_node e h w)
        (allKeys h) t.edges (emit w t.keys t.vals)
        (fun e he => children_map_fst_perm w h e (hall e he))
        (fun e he => children_map_fst_pairwise w h e (hall e he)) ?_
      rw [emit_map_fst w _ _ hvals]
      exact hord

/-- C1: for every well-formed B-tree of any height (leaf lengths, edge counts
of `len + 1` at internal height, and search-tree key separation), the traversal
`children_of_node` yields exactly the keys of the tree in ascending order: if
`ks` is the sorted sequence of the tree's keys then the traversal's keys are
exactly `ks`, in that order, regardless of the tree's shape, for both the
set walk and the value-carrying map walk. -/
theorem children_of_node_sorted {α β : Type} [LinearOrder α]
    (t : BNode α β) (height : Nat) (want_values : Bool)
    (hwf : wf height t) (ks : List α) (hks : ks.Pairwise (· < ·))
    (hperm : (allKeys height t).Perm ks) :
    (children_of_node t height want_values).map Prod.fst = ks ∧
    (children_of_node t height want_values).length = ks.length := by
  haveI : IsAntisymm α (· < ·) := ⟨fun a b h1 h2 => absurd h2 (lt_asymm h1)⟩
  have hp : ((children_of_node t height want_values).map Prod.fst).Perm ks :=
    (children_map_fst_perm want_values height t hwf).trans hperm
  have heq : (children_of_node t height want_values).map Prod.fst = ks :=
    List.eq_of_perm_of_sorted hp
      (children_map_fst_pairwise want_values height t hwf) hks
  refine ⟨heq, ?_⟩
  rw [← heq, List.length_map]

def leafN (ks : List Nat) : BNode Nat Nat := BNode.node ks ks []

def btreeW : BNode Nat Nat :=
  BNode.node [10] [10]
    [BNode.node [4] [4] [leafN [1, 2], leafN [6]],
      BNode.node [17] [17] [leafN [15], leafN [20, 30]]]

/-- Witness for C1: a height-2 tree (with height-1 internals and height-0
leaves inside) over the keys 1, 2, 4, 6, 10, 15, 17, 20, 30. -/
theorem children_of_node_sorted_witness :
    (wf 2 btreeW ∧
      ([1, 2, 4, 6, 10, 15, 17, 20, 30] : List Nat).Pairwise (· < ·) ∧
      (allKeys 2 btreeW).Perm [1, 2, 4, 6, 10, 15, 17, 20, 30]) ∧
    (children_of_node btreeW 2 true).map Prod.fst
      = [1, 2, 4, 6, 10, 15, 17, 20, 30] :=
  ⟨⟨by decide, by decide, by decide⟩,
    (children_of_node_sorted btreeW 2 true (by decide) _ (by decide)
      (by decide)).1⟩
